import Mathlib

/-
Verification of the FIFO inventory-costing and deal-settlement core of the
Bizio CRM/ERP backend.

The Python sources embedded here (money and quantity values are Python
Decimal, modelled as exact rationals; dates are modelled as naturals,
timestamps as integers):
  - backend/app/services/crm_service.py : calculate_fifo_cost,
    deduct_inventory_fifo, recalculate_deal_totals,
    recalculate_all_deals_totals
  - backend/app/crud.py : adjust_inventory, remove_deal_item
  - backend/app/api/v1/deals.py : add_items_to_deal
  - backend/app/finance.py : aggregate_revenue_and_cogs,
    get_expenses_totals, get_tax_rate, calculate_financials
-/

namespace Bizio

/-! ## Decimal rounding

Python Decimal.quantize(Decimal("0.01")) uses the rounding of the active context,
ROUND_HALF_EVEN by default; the quantize helper of finance.py passes
ROUND_HALF_UP explicitly.  Both are modelled exactly on rationals. -/

/-- Round a rational to 2 decimal places with ties going away from zero,
the semantics of the Python ROUND_HALF_UP mode used by finance.quantize. -/
def roundHalfUp2 (q : ℚ) : ℚ :=
  if 0 ≤ q then (⌊q * 100 + 1/2⌋ : ℚ) / 100
  else -((⌊-(q * 100) + 1/2⌋ : ℚ) / 100)

/-- Round a rational to 2 decimal places with ties going to the even last
digit, the semantics of the Python default ROUND_HALF_EVEN mode used by
Decimal.quantize when no rounding mode is passed. -/
def roundHalfEven2 (q : ℚ) : ℚ :=
  let f : ℤ := ⌊q * 100⌋
  let r : ℚ := q * 100 - f
  if r < 1/2 then (f : ℚ) / 100
  else if 1/2 < r then ((f : ℚ) + 1) / 100
  else if f % 2 = 0 then (f : ℚ) / 100 else ((f : ℚ) + 1) / 100

/-! ## Data model (backend/app/models)

InventoryItem rows carry product_id, remaining_quantity, unit_cost and
received_date; Product rows carry the optional default_cost/default_price;
Inventory rows (inventory positions) carry product_id and quantity. -/

/-- One inventory receipt batch: models.InventoryItem restricted to the
columns the core algorithms read. -/
structure Batch where
  id : ℕ
  product_id : ℕ
  remaining_quantity : ℚ
  unit_cost : ℚ
  received_date : ℕ
deriving DecidableEq, Repr

/-- A product row: models.Product restricted to the columns the core reads. -/
structure Product where
  id : ℕ
  default_cost : Option ℚ
  default_price : Option ℚ
deriving DecidableEq, Repr

/-- Persistent store state seen by the inventory routines: the products
table, the inventory_items table, and the inventory positions table
(product_id paired with quantity; locations are never passed by the core
call sites, so the location column is dropped). -/
structure DB where
  products : List Product
  batches : List Batch
  positions : List (ℕ × ℚ)
deriving DecidableEq, Repr

/-- Ordering used by the ORDER BY received_date ASC clause. -/
def batchLE (a b : Batch) : Prop := a.received_date ≤ b.received_date

instance : DecidableRel batchLE := fun _ _ => Nat.decLe _ _

instance : IsTotal Batch batchLE := ⟨fun _ _ => Nat.le_total _ _⟩

instance : IsTrans Batch batchLE := ⟨fun _ _ _ h h' => Nat.le_trans h h'⟩

/-- The SELECT shared by calculate_fifo_cost and deduct_inventory_fifo:
rows with the given product_id and remaining_quantity > 0, ordered
ascending by received_date. -/
def availableBatches (batches : List Batch) (pid : ℕ) : List Batch :=
  List.insertionSort batchLE
    (batches.filter (fun b => b.product_id == pid && decide (0 < b.remaining_quantity)))

/-- Total remaining quantity over a batch list. -/
def sumRemaining (l : List Batch) : ℚ :=
  (l.map (fun b => b.remaining_quantity)).sum

/-- Errors raised by calculate_fifo_cost (ValueError in the source, with
the two distinct messages). -/
inductive CostError where
  | noInventoryNoDefault (product_id : ℕ)
  | insufficientInventory (product_id : ℕ) (needed available : ℚ)
deriving DecidableEq, Repr

/-- One iteration of the accumulation loop of calculate_fifo_cost over the
state (total_cost, total_quantity, remaining_needed); once remaining_needed
is non-positive the loop has broken and the state no longer changes. -/
def fifoStep (acc : ℚ × ℚ × ℚ) (item : Batch) : ℚ × ℚ × ℚ :=
  if acc.2.2 ≤ 0 then acc
  else
    let take := min item.remaining_quantity acc.2.2
    (acc.1 + take * item.unit_cost, acc.2.1 + take, acc.2.2 - take)

/-- The accumulation loop of calculate_fifo_cost: returns
(total_cost, total_quantity, remaining_needed) after walking the list. -/
def fifoWalk (items : List Batch) (needed : ℚ) : ℚ × ℚ × ℚ :=
  items.foldl fifoStep (0, 0, needed)

/-- Lookup of crud.get_product. -/
def get_product (db : DB) (pid : ℕ) : Option Product :=
  db.products.find? (fun p => p.id == pid)

/-- Embedding of crm_service.calculate_fifo_cost.  When no batch with
positive remaining quantity exists it falls back to the
default_cost of the product when that is truthy (present and nonzero), else raises; when
batches exist but run out before the requested quantity is covered it
raises naming the requested and available amounts; otherwise it returns
the quantity-weighted cost quantized to 2 decimals (default rounding,
ROUND_HALF_EVEN). -/
def calculate_fifo_cost (db : DB) (pid : ℕ) (quantity : ℚ) : Except CostError ℚ :=
  let inventory_items := availableBatches db.batches pid
  if inventory_items.isEmpty then
    match get_product db pid with
    | some product =>
        match product.default_cost with
        | some c => if c = 0 then .error (.noInventoryNoDefault pid) else .ok c
        | none => .error (.noInventoryNoDefault pid)
    | none => .error (.noInventoryNoDefault pid)
  else
    let w := fifoWalk inventory_items quantity
    if 0 < w.2.2 then .error (.insufficientInventory pid quantity w.2.1)
    else .ok (roundHalfEven2 (w.1 / w.2.1))

/-! ## Inventory deduction (crm_service.deduct_inventory_fifo, crud.adjust_inventory) -/

/-- Value of the inventory position row for a product (first row returned
by the SELECT, as scalar_one_or_none reads it). -/
def positionOf (positions : List (ℕ × ℚ)) (pid : ℕ) : Option ℚ :=
  (positions.find? (fun r => r.1 == pid)).map (fun r => r.2)

/-- UPDATE of the first inventory position row matching the product. -/
def setFirstPosition : List (ℕ × ℚ) → ℕ → ℚ → List (ℕ × ℚ)
  | [], _, _ => []
  | r :: rest, pid, v =>
      if r.1 == pid then (r.1, v) :: rest else r :: setFirstPosition rest pid v

/-- Embedding of crud.adjust_inventory with location None: add delta to the
quantity of the existing position row, or insert a new row holding delta. -/
def adjust_inventory (db : DB) (pid : ℕ) (delta : ℚ) : DB :=
  match positionOf db.positions pid with
  | some q => { db with positions := setFirstPosition db.positions pid (q + delta) }
  | none => { db with positions := db.positions ++ [(pid, delta)] }

/-- The deduction loop of deduct_inventory_fifo: for each fetched row in
order, take = min(remaining, remaining_to_deduct); rows reached after the
requested quantity is covered are left unchanged (take 0, the break of the loop).  Returns the per-row (id, take) list. -/
def walkTakes : List Batch → ℚ → List (ℕ × ℚ)
  | [], _ => []
  | b :: rest, rn =>
      if rn ≤ 0 then (b.id, 0) :: walkTakes rest rn
      else
        let take := min b.remaining_quantity rn
        (b.id, take) :: walkTakes rest (rn - take)

/-- Take assigned to a given row id by the deduction loop. -/
def takeOf (tks : List (ℕ × ℚ)) (i : ℕ) : ℚ :=
  ((tks.find? (fun r => r.1 == i)).map (fun r => r.2)).getD 0

/-- Embedding of crm_service.deduct_inventory_fifo: decrement the fetched
rows (the positive-remaining batches of this product, ascending by
received_date) by their takes, then adjust the inventory of the product
position by the full -quantity. -/
def deduct_inventory_fifo (db : DB) (pid : ℕ) (quantity : ℚ) : DB :=
  let tks := walkTakes (availableBatches db.batches pid) quantity
  let batches' := db.batches.map (fun b =>
    if b.product_id == pid then
      { b with remaining_quantity := b.remaining_quantity - takeOf tks b.id }
    else b)
  adjust_inventory { db with batches := batches' } pid (-quantity)

/-! ## Deal aggregate (api/v1/deals.add_items_to_deal, crud.remove_deal_item,
crm_service.recalculate_deal_totals, crm_service.recalculate_all_deals_totals) -/

/-- A deal line item: models.DealItem restricted to the columns the core
reads and writes. -/
structure DealItem where
  id : ℕ
  product_id : ℕ
  quantity : ℚ
  unit_price : ℚ
  unit_cost : ℚ
  total_price : ℚ
  total_cost : ℚ
deriving DecidableEq, Repr

/-- Financial columns of a models.Deal row. -/
structure Deal where
  total_price : ℚ
  total_cost : ℚ
  margin : ℚ
deriving DecidableEq, Repr

/-- A deal together with its line items; nextId models the primary-key
sequence assigning ids to newly inserted items. -/
structure DealState where
  deal : Deal
  items : List DealItem
  nextId : ℕ
deriving DecidableEq, Repr

/-- Request payload for one line item: schemas.DealItemCreate. -/
structure ItemSpec where
  product_id : ℕ
  quantity : ℚ
  unit_price : Option ℚ
  unit_cost : Option ℚ
deriving DecidableEq, Repr

/-- Client-visible errors of the add-items endpoint. -/
inductive ApiError where
  | productNotFound (pid : ℕ)
  | missingPrice (pid : ℕ)
  | costUnavailable (pid : ℕ) (e : CostError)
deriving DecidableEq, Repr

/-- One iteration of the add_items_to_deal loop: look up the product,
resolve unit_price (given value else product.default_price, else 400),
resolve unit_cost (FIFO calculator; on its ValueError fall back to a
truthy product.default_cost, else 400), build the DealItem row, and
deduct the sold quantity from inventory. -/
def resolve_item (db : DB) (spec : ItemSpec) (item_id : ℕ) :
    Except ApiError (DealItem × DB) :=
  match get_product db spec.product_id with
  | none => .error (.productNotFound spec.product_id)
  | some product =>
    match (match spec.unit_price with
           | some v => some v
           | none => product.default_price) with
    | none => .error (.missingPrice product.id)
    | some unit_price =>
      match (match calculate_fifo_cost db spec.product_id spec.quantity with
             | .ok c => Except.ok c
             | .error e =>
                 match product.default_cost with
                 | some dc => if dc = 0 then Except.error e else Except.ok dc
                 | none => Except.error e) with
      | .error e => .error (.costUnavailable spec.product_id e)
      | .ok unit_cost =>
          .ok (⟨item_id, spec.product_id, spec.quantity, unit_price, unit_cost,
                spec.quantity * unit_price, spec.quantity * unit_cost⟩,
               deduct_inventory_fifo db spec.product_id spec.quantity)

/-- The fail-fast loop over the posted item payloads; an error aborts the
whole request (the surrounding transaction is never committed). -/
def add_items_loop (db : DB) (specs : List ItemSpec) (next_id : ℕ) :
    Except ApiError (List DealItem × DB) :=
  match specs with
  | [] => .ok ([], db)
  | s :: rest =>
      match resolve_item db s next_id with
      | .error e => .error e
      | .ok (item, db') =>
          match add_items_loop db' rest (next_id + 1) with
          | .error e => .error e
          | .ok (items, db'') => .ok (item :: items, db'')

/-- Embedding of the add-items endpoint (deals.py): create the items,
then increment deal.total_price and deal.total_cost by the totals of the created
items and set margin = total_price - total_cost. -/
def add_items_to_deal (db : DB) (st : DealState) (specs : List ItemSpec) :
    Except ApiError (DealState × DB) :=
  match add_items_loop db specs st.nextId with
  | .error e => .error e
  | .ok (new_items, db') =>
      let tp := st.deal.total_price + (new_items.map (fun i => i.total_price)).sum
      let tc := st.deal.total_cost + (new_items.map (fun i => i.total_cost)).sum
      .ok ({ deal := { total_price := tp, total_cost := tc, margin := tp - tc },
             items := st.items ++ new_items,
             nextId := st.nextId + specs.length }, db')

/-- Embedding of crud.remove_deal_item: if the item exists delete it,
re-sum total_price and total_cost over the remaining items and set
margin = total_price - total_cost, returning True; else change nothing
and return False. -/
def remove_deal_item (st : DealState) (item_id : ℕ) : DealState × Bool :=
  if st.items.any (fun i => i.id == item_id) then
    let items' := st.items.eraseP (fun i => i.id == item_id)
    let tp := (items'.map (fun i => i.total_price)).sum
    let tc := (items'.map (fun i => i.total_cost)).sum
    ({ deal := { total_price := tp, total_cost := tc, margin := tp - tc },
       items := items', nextId := st.nextId }, true)
  else (st, false)

/-- A mutating operation on one deal through the public API. -/
inductive DealOp where
  | addItems (specs : List ItemSpec)
  | removeItem (item_id : ℕ)

/-- Apply one operation; a failed add-items request leaves the state
untouched (its transaction is never committed). -/
def applyDealOp (s : DealState × DB) (op : DealOp) : DealState × DB :=
  match op with
  | .addItems specs =>
      match add_items_to_deal s.2 s.1 specs with
      | .ok r => r
      | .error _ => s
  | .removeItem item_id => ((remove_deal_item s.1 item_id).1, s.2)

/-- Apply a sequence of operations in order. -/
def applyDealOps (s : DealState × DB) (ops : List DealOp) : DealState × DB :=
  ops.foldl applyDealOp s

/-- Embedding of crm_service.recalculate_deal_totals: overwrite the
totals with the sums over its current items and set
margin = total_price - total_cost. -/
def recalculate_deal_totals (st : DealState) : DealState :=
  let tp := (st.items.map (fun i => i.total_price)).sum
  let tc := (st.items.map (fun i => i.total_cost)).sum
  { st with deal := { total_price := tp, total_cost := tc, margin := tp - tc } }

/-- Embedding of crm_service.recalculate_all_deals_totals: walk every deal
with its items, overwrite the totals of exactly those deals whose stored
total_price or total_cost differs from the item sums, and count them. -/
def recalculate_all_deals_totals :
    List (Deal × List DealItem) → List (Deal × List DealItem) × ℕ
  | [] => ([], 0)
  | (deal, items) :: rest =>
      let r := recalculate_all_deals_totals rest
      let tp := (items.map (fun i => i.total_price)).sum
      let tc := (items.map (fun i => i.total_cost)).sum
      if deal.total_price ≠ tp ∨ deal.total_cost ≠ tc then
        (({ total_price := tp, total_cost := tc, margin := tp - tc }, items) :: r.1,
         r.2 + 1)
      else ((deal, items) :: r.1, r.2)

/-! ## Financial aggregator (finance.py) -/

/-- The five recognized deal statuses (models.DealStatus). -/
inductive DealStatus where
  | new
  | preparing_document
  | prepaid_account
  | at_work
  | final_account
deriving DecidableEq, Repr

/-- Financial columns of a models.Deal row as the aggregator reads them;
created_at is carried to state that the aggregation never depends on it. -/
structure DealRow where
  tenant_id : ℕ
  status : DealStatus
  total_price : ℚ
  total_cost : ℚ
  closed_at : Option ℤ
  created_at : ℤ
deriving DecidableEq, Repr

/-- Status test of the WHERE clause: status == DealStatus.final_account. -/
def isFinalAccount : DealStatus → Bool
  | .final_account => true
  | _ => false

/-- SQL filter closed_at >= start AND closed_at <= end with NULL
semantics: a NULL closed_at satisfies no bound. -/
def inClosedRange (closed : Option ℤ) (s e : Option ℤ) : Bool :=
  (match s with
   | none => true
   | some sv => match closed with
     | some c => decide (sv ≤ c)
     | none => false) &&
  (match e with
   | none => true
   | some ev => match closed with
     | some c => decide (c ≤ ev)
     | none => false)

/-- Embedding of finance.aggregate_revenue_and_cogs: sum total_price and
total_cost over the deals of the tenant with status final_account whose
closed_at lies in the optional [start, end] range. -/
def aggregate_revenue_and_cogs (deals : List DealRow) (tenant_id : ℕ)
    (s e : Option ℤ) : ℚ × ℚ :=
  let sel := deals.filter (fun d =>
    d.tenant_id == tenant_id && isFinalAccount d.status
      && inClosedRange d.closed_at s e)
  ((sel.map (fun d => d.total_price)).sum, (sel.map (fun d => d.total_cost)).sum)

/-- A models.Expense row as the aggregator reads it. -/
structure Expense where
  tenant_id : ℕ
  amount : ℚ
  is_fixed : Bool
  date : ℤ
deriving DecidableEq, Repr

/-- Expense date filter date >= start AND date <= end (date is NOT NULL). -/
def expenseInRange (d : ℤ) (s e : Option ℤ) : Bool :=
  (match s with | none => true | some sv => decide (sv ≤ d)) &&
  (match e with | none => true | some ev => decide (d ≤ ev))

/-- Embedding of finance.get_expenses_totals: (fixed, variable, total)
expense sums of the tenant in range, partitioned by is_fixed. -/
def get_expenses_totals (expenses : List Expense) (tenant_id : ℕ)
    (s e : Option ℤ) : ℚ × ℚ × ℚ :=
  let sel := expenses.filter (fun x => x.tenant_id == tenant_id && expenseInRange x.date s e)
  let fixed := ((sel.filter (fun x => x.is_fixed)).map (fun x => x.amount)).sum
  let varia := ((sel.filter (fun x => !x.is_fixed)).map (fun x => x.amount)).sum
  (fixed, varia, fixed + varia)

/-- Embedding of finance.get_tax_rate over the optional
FinancialSettings row: a truthy (nonzero) stored rate, else 0. -/
def get_tax_rate (settings : Option ℚ) : ℚ :=
  match settings with
  | some r => if r = 0 then 0 else r
  | none => 0

/-- Manual override arguments of finance.calculate_financials. -/
structure FinOverrides where
  opex : Option ℚ
  fixed_costs : Option ℚ
  variable_costs : Option ℚ
  taxes_percent : Option ℚ
  revenue_override : Option ℚ
  cogs_override : Option ℚ
deriving DecidableEq, Repr

/-- Overrides record with every override absent. -/
def noOverrides : FinOverrides := ⟨none, none, none, none, none, none⟩

/-- Result dictionary of finance.calculate_financials. -/
structure FinancialReport where
  revenue : ℚ
  cogs : ℚ
  gross_profit : ℚ
  gross_margin_pct : ℚ
  opex : ℚ
  ebit : ℚ
  taxes_percent : ℚ
  taxes : ℚ
  total_expenses : ℚ
  net_profit : ℚ
  net_margin_pct : ℚ
  fixed_costs : ℚ
  variable_costs : ℚ
  break_even_revenue : Option ℚ
deriving DecidableEq, Repr

/-- Embedding of finance.calculate_financials. -/
def calculate_financials (deals : List DealRow) (expenses : List Expense)
    (settings : Option ℚ) (tenant_id : ℕ) (s e : Option ℤ)
    (ov : FinOverrides) : FinancialReport :=
  let agg := aggregate_revenue_and_cogs deals tenant_id s e
  let revenue := match ov.revenue_override with | some v => v | none => agg.1
  let cogs := match ov.cogs_override with | some v => v | none => agg.2
  let ex := get_expenses_totals expenses tenant_id s e
  let tax_rate := match ov.taxes_percent with
    | some t => t
    | none => get_tax_rate settings
  let manual_opex := ov.opex.getD 0
  let manual_fixed := ov.fixed_costs.getD 0
  let gross_profit := roundHalfUp2 (revenue - cogs)
  let gross_margin_pct :=
    roundHalfUp2 (if 0 < revenue then gross_profit / revenue * 100 else 0)
  let total_opex := manual_opex + ex.2.2
  let ebit := roundHalfUp2 (gross_profit - total_opex)
  let taxes :=
    if 0 < ebit ∧ 0 < tax_rate then roundHalfUp2 (ebit * tax_rate / 100) else 0
  let total_expenses := roundHalfUp2 (cogs + total_opex + manual_fixed)
  let net_profit := roundHalfUp2 (revenue - total_expenses - taxes)
  let net_margin_pct :=
    roundHalfUp2 (if 0 < revenue then net_profit / revenue * 100 else 0)
  let total_fixed := manual_fixed + ex.1
  let total_variable := match ov.variable_costs with
    | some v => v
    | none => cogs + ex.2.1
  let break_even :=
    if 0 < revenue then
      if 0 < revenue - total_variable then
        some (roundHalfUp2 (total_fixed / ((revenue - total_variable) / revenue)))
      else none
    else none
  ⟨roundHalfUp2 revenue, roundHalfUp2 cogs, gross_profit, gross_margin_pct,
   roundHalfUp2 total_opex, ebit, tax_rate, taxes, total_expenses, net_profit,
   net_margin_pct, roundHalfUp2 total_fixed, roundHalfUp2 total_variable,
   break_even⟩

/-! ## Basic lemmas about the FIFO walk and the batch query -/

theorem sumRemaining_nil : sumRemaining [] = 0 := rfl

theorem sumRemaining_cons (b : Batch) (l : List Batch) :
    sumRemaining (b :: l) = b.remaining_quantity + sumRemaining l := by
  simp [sumRemaining]

theorem sumRemaining_nonneg {l : List Batch}
    (h : ∀ b ∈ l, 0 < b.remaining_quantity) : 0 ≤ sumRemaining l := by
  induction l with
  | nil => simp [sumRemaining_nil]
  | cons a t ih =>
      have ha := h a (List.mem_cons_self a t)
      have ht : ∀ b ∈ t, 0 < b.remaining_quantity :=
        fun b hb => h b (List.mem_cons_of_mem _ hb)
      rw [sumRemaining_cons]
      have := ih ht
      linarith

theorem sumRemaining_perm {l₁ l₂ : List Batch} (h : l₁.Perm l₂) :
    sumRemaining l₁ = sumRemaining l₂ :=
  List.Perm.sum_eq (h.map _)

theorem availableBatches_perm (batches : List Batch) (pid : ℕ) :
    (availableBatches batches pid).Perm
      (batches.filter (fun b => b.product_id == pid && decide (0 < b.remaining_quantity))) :=
  List.perm_insertionSort _ _

theorem availableBatches_sorted (batches : List Batch) (pid : ℕ) :
    List.Sorted batchLE (availableBatches batches pid) :=
  List.sorted_insertionSort _ _

theorem mem_availableBatches {batches : List Batch} {pid : ℕ} {b : Batch} :
    b ∈ availableBatches batches pid ↔
      b ∈ batches ∧ b.product_id = pid ∧ 0 < b.remaining_quantity := by
  rw [(availableBatches_perm batches pid).mem_iff, List.mem_filter]
  simp [and_assoc]

theorem availableBatches_pos {batches : List Batch} {pid : ℕ} :
    ∀ b ∈ availableBatches batches pid, 0 < b.remaining_quantity :=
  fun _ hb => (mem_availableBatches.mp hb).2.2

theorem foldl_fifoStep_quantity (l : List Batch) :
    ∀ acc : ℚ × ℚ × ℚ, (∀ b ∈ l, 0 < b.remaining_quantity) → 0 ≤ acc.2.2 →
      (l.foldl fifoStep acc).2.1 = acc.2.1 + min acc.2.2 (sumRemaining l)
      ∧ (l.foldl fifoStep acc).2.2 = acc.2.2 - min acc.2.2 (sumRemaining l) := by
  induction l with
  | nil =>
      intro acc _ hacc
      simp [sumRemaining_nil, min_eq_right hacc]
  | cons b t ih =>
      intro acc h hacc
      have hb := h b (List.mem_cons_self b t)
      have ht : ∀ x ∈ t, 0 < x.remaining_quantity :=
        fun x hx => h x (List.mem_cons_of_mem _ hx)
      have hst : 0 ≤ sumRemaining t := sumRemaining_nonneg ht
      rw [List.foldl_cons, sumRemaining_cons]
      by_cases hz : acc.2.2 ≤ 0
      · have hz0 : acc.2.2 = 0 := le_antisymm hz hacc
        have hstep : fifoStep acc b = acc := by simp [fifoStep, hz]
        rw [hstep]
        obtain ⟨ih1, ih2⟩ := ih acc ht hacc
        rw [ih1, ih2, hz0, min_eq_left hst, min_eq_left (by linarith)]
        constructor <;> ring
      · push_neg at hz
        have hstep : fifoStep acc b =
            (acc.1 + min b.remaining_quantity acc.2.2 * b.unit_cost,
             acc.2.1 + min b.remaining_quantity acc.2.2,
             acc.2.2 - min b.remaining_quantity acc.2.2) := by
          simp [fifoStep, not_le.mpr hz]
        rw [hstep]
        have htle : min b.remaining_quantity acc.2.2 ≤ acc.2.2 := min_le_right _ _
        obtain ⟨ih1, ih2⟩ := ih
          (acc.1 + min b.remaining_quantity acc.2.2 * b.unit_cost,
           acc.2.1 + min b.remaining_quantity acc.2.2,
           acc.2.2 - min b.remaining_quantity acc.2.2) ht
          (by show 0 ≤ acc.2.2 - min b.remaining_quantity acc.2.2; linarith)
        rw [ih1, ih2]
        rcases le_total b.remaining_quantity acc.2.2 with hc | hc
        · rw [min_eq_left hc]
          rcases le_total (acc.2.2 - b.remaining_quantity) (sumRemaining t) with h2 | h2
          · rw [min_eq_left h2, min_eq_left (by linarith)]
            constructor <;> ring
          · rw [min_eq_right h2, min_eq_right (by linarith)]
            constructor <;> ring
        · rw [min_eq_right hc]
          have h3 : min (acc.2.2 - acc.2.2) (sumRemaining t) = 0 := by
            rw [sub_self, min_eq_left hst]
          rw [h3, min_eq_left (by linarith)]
          constructor <;> ring

theorem fifoWalk_quantity {l : List Batch} (h : ∀ b ∈ l, 0 < b.remaining_quantity)
    {q : ℚ} (hq : 0 ≤ q) :
    (fifoWalk l q).2.1 = min q (sumRemaining l)
    ∧ (fifoWalk l q).2.2 = q - min q (sumRemaining l) := by
  have := foldl_fifoStep_quantity l (0, 0, q) h hq
  simpa [fifoWalk] using this

theorem calculate_fifo_cost_ok_of_le {db : DB} {pid : ℕ} {q : ℚ} (hq : 0 < q)
    (hle : q ≤ sumRemaining (availableBatches db.batches pid)) :
    calculate_fifo_cost db pid q =
      .ok (roundHalfEven2 ((fifoWalk (availableBatches db.batches pid) q).1
        / (fifoWalk (availableBatches db.batches pid) q).2.1)) := by
  have hpos : ∀ b ∈ availableBatches db.batches pid, 0 < b.remaining_quantity :=
    availableBatches_pos
  have hne : (availableBatches db.batches pid).isEmpty = false := by
    cases hA : availableBatches db.batches pid with
    | nil => rw [hA, sumRemaining_nil] at hle; linarith
    | cons x xs => simp
  obtain ⟨h1, h2⟩ := fifoWalk_quantity hpos hq.le
  have hmin : min q (sumRemaining (availableBatches db.batches pid)) = q :=
    min_eq_left hle
  unfold calculate_fifo_cost
  simp only [hne, Bool.false_eq_true, if_false]
  rw [h2, hmin, sub_self]
  simp

theorem isEmpty_false_of_ne {α : Type} {l : List α} (h : l ≠ []) :
    l.isEmpty = false := by
  cases l with
  | nil => exact absurd rfl h
  | cons a t => rfl

theorem calculate_fifo_cost_default {db : DB} {pid : ℕ} {q : ℚ} {p : Product} {c : ℚ}
    (hA : availableBatches db.batches pid = [])
    (hp : get_product db pid = some p) (hc : p.default_cost = some c)
    (hcne : c ≠ 0) :
    calculate_fifo_cost db pid q = .ok c := by
  unfold calculate_fifo_cost
  simp [hA, hp, hc, hcne]

theorem calculate_fifo_cost_noDefault {db : DB} {pid : ℕ} {q : ℚ}
    (hA : availableBatches db.batches pid = [])
    (hd : ∀ p, get_product db pid = some p → p.default_cost.getD 0 = 0) :
    calculate_fifo_cost db pid q = .error (.noInventoryNoDefault pid) := by
  unfold calculate_fifo_cost
  cases hp : get_product db pid with
  | none => simp [hA, hp]
  | some p =>
      have hzero := hd p hp
      cases hc : p.default_cost with
      | none => simp [hA, hp, hc]
      | some c =>
          rw [hc] at hzero
          simp only [Option.getD_some] at hzero
          simp [hA, hp, hc, hzero]

theorem calculate_fifo_cost_insufficient {db : DB} {pid : ℕ} {q : ℚ} (hq : 0 < q)
    (hne : availableBatches db.batches pid ≠ [])
    (hlt : sumRemaining (availableBatches db.batches pid) < q) :
    calculate_fifo_cost db pid q =
      .error (.insufficientInventory pid q
        (sumRemaining (availableBatches db.batches pid))) := by
  have hpos : ∀ b ∈ availableBatches db.batches pid, 0 < b.remaining_quantity :=
    availableBatches_pos
  obtain ⟨h1, h2⟩ := fifoWalk_quantity hpos hq.le
  have hmin : min q (sumRemaining (availableBatches db.batches pid))
      = sumRemaining (availableBatches db.batches pid) := min_eq_right hlt.le
  have hcond : 0 < (fifoWalk (availableBatches db.batches pid) q).2.2 := by
    rw [h2, hmin]; linarith
  unfold calculate_fifo_cost
  simp only [isEmpty_false_of_ne hne, Bool.false_eq_true, if_false, if_pos hcond]
  rw [h1, hmin]

/-! ## Concrete states used by the claims -/

/-- The FIFO ordering example of the spec: one product (id 7), batches of 50
units at cost 48 received on day 1 and 50 units at cost 52 received on
day 15, stored in reverse date order to exercise the ORDER BY. -/
def fifoExampleDB : DB :=
  ⟨[⟨7, none, none⟩], [⟨2, 7, 50, 52, 15⟩, ⟨1, 7, 50, 48, 1⟩], []⟩

/-- A product (id 1, default cost 50) whose only batch has been fully
consumed: remaining_quantity 0, so the batch exists but is filtered away
by the remaining_quantity > 0 query. -/
def emptiedBatchDB : DB :=
  ⟨[⟨1, some 50, none⟩], [⟨10, 1, 0, 10, 1⟩], []⟩

/-- A product (id 2) whose two one-unit batches cost 0.12 and 0.13, so a
request of 2 units averages to exactly 0.125, a rounding tie. -/
def halfTieDB : DB :=
  ⟨[⟨2, none, none⟩], [⟨3, 2, 1, 12/100, 1⟩, ⟨4, 2, 1, 13/100, 2⟩], []⟩

/-- A product (id 3, default cost 50, a stored position of 20) with no
batches of its own; the only batch in the store belongs to product 4. -/
def defaultOnlyDB : DB :=
  ⟨[⟨3, some 50, none⟩], [⟨5, 4, 9, 1, 1⟩], [(3, 20)]⟩

/-! ## Claims C1, C3, C5, C8 -/

/-- C1: for every product and quantity 0 < q not exceeding the total
remaining quantity of the batches of the product, calculate_fifo_cost walks
exactly the positive-remaining batches of the product in ascending
received_date order, accumulating take = min(remaining, still_needed)
into total_cost and total_quantity, and returns total_cost /
total_quantity rounded to 2 decimal places; in particular on batches
(50 at cost 48 received day 1; 50 at cost 52 received day 15) a request
of 60 returns 48.67. -/
theorem C1_fifo_unit_cost (db : DB) (pid : ℕ) (q : ℚ) (hq : 0 < q)
    (hle : q ≤ sumRemaining (availableBatches db.batches pid)) :
    List.Sorted batchLE (availableBatches db.batches pid)
    ∧ (availableBatches db.batches pid).Perm
        (db.batches.filter
          (fun b => b.product_id == pid && decide (0 < b.remaining_quantity)))
    ∧ calculate_fifo_cost db pid q =
        .ok (roundHalfEven2 ((fifoWalk (availableBatches db.batches pid) q).1
          / (fifoWalk (availableBatches db.batches pid) q).2.1))
    ∧ calculate_fifo_cost fifoExampleDB 7 60 = .ok (4867/100) :=
  ⟨availableBatches_sorted _ _, availableBatches_perm _ _,
   calculate_fifo_cost_ok_of_le hq hle, by
    norm_num [calculate_fifo_cost, fifoExampleDB, availableBatches,
      List.insertionSort, List.orderedInsert, batchLE, fifoWalk, fifoStep,
      get_product, roundHalfEven2, List.filter]⟩

/-- Witness for C1 at the example state of the spec. -/
theorem C1_fifo_unit_cost_witness :
    calculate_fifo_cost fifoExampleDB 7 60 = .ok (4867/100) :=
  (C1_fifo_unit_cost fifoExampleDB 7 60 (by norm_num)
    (by norm_num [availableBatches, fifoExampleDB, List.insertionSort,
      List.orderedInsert, batchLE, List.filter, sumRemaining])).2.2.2

/-- C3 as stated is false at this input: product 1 has a batch (so, per
the claim, a total remaining 0 < 5 must raise InsufficientInventory), yet
the call succeeds with the default cost 50, because the query only sees
batches with remaining_quantity > 0. -/
theorem C3_counterexample :
    emptiedBatchDB.batches ≠ []
    ∧ (∀ b ∈ emptiedBatchDB.batches, b.product_id = 1)
    ∧ sumRemaining emptiedBatchDB.batches < 5
    ∧ calculate_fifo_cost emptiedBatchDB 1 5 = .ok 50 := by
  refine ⟨by simp [emptiedBatchDB], ?_, ?_, ?_⟩
  · intro b hb
    simp [emptiedBatchDB] at hb
    simp [hb]
  · norm_num [emptiedBatchDB, sumRemaining]
  · norm_num [calculate_fifo_cost, emptiedBatchDB, availableBatches,
      List.insertionSort, List.orderedInsert, batchLE, get_product,
      List.filter, List.find?]

/-- C3 (amended): with "no batches" read as "no batches with positive
remaining quantity", calculate_fifo_cost with q > 0 fails exactly when
(a) positive-remaining batches exist but their total is below q, naming
the requested and available amounts, or (b) none exist and no truthy
default cost is configured; with none but a truthy default cost it
returns that default. -/
theorem C3_amended (db : DB) (pid : ℕ) (q : ℚ) (hq : 0 < q) :
    (availableBatches db.batches pid = [] →
      ∀ p c, get_product db pid = some p → p.default_cost = some c → c ≠ 0 →
        calculate_fifo_cost db pid q = .ok c)
    ∧ (availableBatches db.batches pid = [] →
        (∀ p, get_product db pid = some p → p.default_cost.getD 0 = 0) →
        calculate_fifo_cost db pid q = .error (.noInventoryNoDefault pid))
    ∧ (availableBatches db.batches pid ≠ [] →
        sumRemaining (availableBatches db.batches pid) < q →
        calculate_fifo_cost db pid q =
          .error (.insufficientInventory pid q
            (sumRemaining (availableBatches db.batches pid))))
    ∧ (availableBatches db.batches pid ≠ [] →
        q ≤ sumRemaining (availableBatches db.batches pid) →
        ∃ c, calculate_fifo_cost db pid q = .ok c) := by
  refine ⟨?_, ?_, ?_, ?_⟩
  · intro hA p c hp hc hcne
    exact calculate_fifo_cost_default hA hp hc hcne
  · intro hA hd
    exact calculate_fifo_cost_noDefault hA hd
  · intro hne hlt
    exact calculate_fifo_cost_insufficient hq hne hlt
  · intro _ hle
    exact ⟨_, calculate_fifo_cost_ok_of_le hq hle⟩

/-- Witness for C3 (amended) at the emptied-batch state: the default cost
is returned. -/
theorem C3_amended_witness :
    calculate_fifo_cost emptiedBatchDB 1 5 = .ok 50 :=
  (C3_amended emptiedBatchDB 1 5 (by norm_num)).1
    (by norm_num [availableBatches, emptiedBatchDB, List.insertionSort,
      List.orderedInsert, batchLE, List.filter])
    ⟨1, some 50, none⟩ 50
    (by norm_num [get_product, emptiedBatchDB, List.find?]) rfl (by norm_num)

/-- C5 as stated is false at this input: two one-unit batches at costs
0.12 and 0.13 give exact average 0.125 on a request of 2; the code
(Decimal.quantize with the context default ROUND_HALF_EVEN) returns 0.12,
while rounding half-up would give 0.13. -/
theorem C5_counterexample :
    calculate_fifo_cost halfTieDB 2 2 = .ok (12/100)
    ∧ roundHalfUp2 ((fifoWalk (availableBatches halfTieDB.batches 2) 2).1
        / (fifoWalk (availableBatches halfTieDB.batches 2) 2).2.1) = 13/100
    ∧ ((12 : ℚ)/100 ≠ 13/100) := by
  refine ⟨?_, ?_, by norm_num⟩
  · norm_num [calculate_fifo_cost, halfTieDB, availableBatches,
      List.insertionSort, List.orderedInsert, batchLE, fifoWalk, fifoStep,
      get_product, roundHalfEven2, List.filter]
  · norm_num [halfTieDB, availableBatches, List.insertionSort,
      List.orderedInsert, batchLE, fifoWalk, fifoStep, roundHalfUp2,
      List.filter]

/-- C5 (amended): every success of calculate_fifo_cost that consumed
batches returns total_cost / total_quantity rounded half-EVEN (bankers
rounding, the Python Decimal default) to 2 decimal places; the
zero-available default-cost success returns the default cost unrounded. -/
theorem C5_amended (db : DB) (pid : ℕ) (q c : ℚ)
    (hne : availableBatches db.batches pid ≠ [])
    (hok : calculate_fifo_cost db pid q = .ok c) :
    c = roundHalfEven2 ((fifoWalk (availableBatches db.batches pid) q).1
      / (fifoWalk (availableBatches db.batches pid) q).2.1) := by
  unfold calculate_fifo_cost at hok
  simp only [isEmpty_false_of_ne hne, Bool.false_eq_true, if_false] at hok
  by_cases hcond : 0 < (fifoWalk (availableBatches db.batches pid) q).2.2
  · rw [if_pos hcond] at hok
    exact absurd hok (by simp)
  · rw [if_neg hcond] at hok
    exact (Except.ok.injEq _ _ ▸ hok).symm

/-- Witness for C5 (amended) at the tie state: the returned 0.12 equals
the half-even rounding of the exact average 0.125. -/
theorem C5_amended_witness :
    (12 : ℚ)/100 = roundHalfEven2
      ((fifoWalk (availableBatches halfTieDB.batches 2) 2).1
        / (fifoWalk (availableBatches halfTieDB.batches 2) 2).2.1) :=
  C5_amended halfTieDB 2 2 (12/100)
    (by
      have h : availableBatches halfTieDB.batches 2 =
          [⟨3, 2, 1, 12/100, 1⟩, ⟨4, 2, 1, 13/100, 2⟩] := by
        norm_num [availableBatches, halfTieDB, List.insertionSort,
          List.orderedInsert, batchLE, List.filter]
      rw [h]
      exact List.cons_ne_nil _ _)
    (by norm_num [calculate_fifo_cost, halfTieDB, availableBatches,
      List.insertionSort, List.orderedInsert, batchLE, fifoWalk, fifoStep,
      get_product, roundHalfEven2, List.filter])

/-- Session-state-passing form of calculate_fifo_cost: the source issues
only SELECT statements and arithmetic, never an UPDATE, INSERT or DELETE,
so the store state after the call is the store state before it. -/
def calculate_fifo_cost_op (db : DB) (pid : ℕ) (q : ℚ) :
    Except CostError ℚ × DB :=
  (calculate_fifo_cost db pid q, db)

/-- C8: calculate_fifo_cost mutates no inventory state: batches and
positions are identical before and after the call whether it succeeds or
fails, and in the zero-batch case with a truthy configured default cost
it succeeds with that default cost while still touching nothing. -/
theorem C8_no_mutation (db : DB) (pid : ℕ) (q : ℚ) :
    ((calculate_fifo_cost_op db pid q).2.batches = db.batches
      ∧ (calculate_fifo_cost_op db pid q).2.positions = db.positions
      ∧ (calculate_fifo_cost_op db pid q).2 = db)
    ∧ (∀ p c, get_product db pid = some p → p.default_cost = some c → c ≠ 0 →
        availableBatches db.batches pid = [] →
        (calculate_fifo_cost_op db pid q).1 = .ok c) :=
  ⟨⟨rfl, rfl, rfl⟩, fun _ c hp hc hcne hA =>
    calculate_fifo_cost_default hA hp hc hcne⟩

/-- Witness for C8 at a product with no batches and default cost 50. -/
theorem C8_no_mutation_witness :
    (calculate_fifo_cost_op defaultOnlyDB 3 7).1 = .ok 50 :=
  (C8_no_mutation defaultOnlyDB 3 7).2 ⟨3, some 50, none⟩ 50
    (by norm_num [get_product, defaultOnlyDB, List.find?]) rfl (by norm_num)
    (by norm_num [availableBatches, defaultOnlyDB, List.insertionSort,
      List.orderedInsert, batchLE, List.filter])

/-! ## Lemmas for inventory deduction -/

theorem positionOf_cons (a : ℕ) (b : ℚ) (rest : List (ℕ × ℚ)) (pid : ℕ) :
    positionOf ((a, b) :: rest) pid
      = if a == pid then some b else positionOf rest pid := by
  by_cases h : a == pid <;> simp [positionOf, List.find?_cons, h]

theorem positionOf_setFirst {l : List (ℕ × ℚ)} {pid : ℕ} {q0 : ℚ} (v : ℚ)
    (h : positionOf l pid = some q0) :
    positionOf (setFirstPosition l pid v) pid = some v := by
  induction l with
  | nil => simp [positionOf] at h
  | cons r rest ih =>
      obtain ⟨a, b⟩ := r
      by_cases hr : a == pid
      · simp [setFirstPosition, hr, positionOf_cons]
      · rw [positionOf_cons, if_neg hr] at h
        simp only [setFirstPosition, hr, Bool.false_eq_true, if_false]
        rw [positionOf_cons, if_neg hr]
        exact ih h

theorem positionOf_append_self (l : List (ℕ × ℚ)) (pid : ℕ) (v : ℚ)
    (h : positionOf l pid = none) :
    positionOf (l ++ [(pid, v)]) pid = some v := by
  have hf : l.find? (fun r => r.1 == pid) = none := by
    cases hx : l.find? (fun r => r.1 == pid) with
    | none => rfl
    | some x => rw [positionOf, hx] at h; simp at h
  simp [positionOf, List.find?_append, hf]

theorem adjust_inventory_position (db : DB) (pid : ℕ) (d : ℚ) :
    positionOf (adjust_inventory db pid d).positions pid
      = some ((positionOf db.positions pid).getD 0 + d) := by
  unfold adjust_inventory
  cases h : positionOf db.positions pid with
  | none =>
      simp only [Option.getD_none]
      rw [zero_add]
      exact positionOf_append_self _ _ _ h
  | some q0 =>
      simp only [Option.getD_some]
      exact positionOf_setFirst _ h

theorem adjust_inventory_batches (db : DB) (pid : ℕ) (d : ℚ) :
    (adjust_inventory db pid d).batches = db.batches := by
  unfold adjust_inventory
  cases h : positionOf db.positions pid <;> simp

theorem walkTakes_keys (l : List Batch) :
    ∀ q : ℚ, (walkTakes l q).map Prod.fst = l.map (fun b => b.id) := by
  induction l with
  | nil => intro q; rfl
  | cons b t ih =>
      intro q
      by_cases hz : q ≤ 0 <;> simp [walkTakes, hz, ih]

theorem walkTakes_sum (l : List Batch) :
    ∀ q : ℚ, (∀ b ∈ l, 0 < b.remaining_quantity) → 0 ≤ q →
      ((walkTakes l q).map (fun r => r.2)).sum = min q (sumRemaining l) := by
  induction l with
  | nil =>
      intro q _ hq
      simp [walkTakes, sumRemaining_nil, min_eq_right hq]
  | cons b t ih =>
      intro q h hq
      have hb := h b (List.mem_cons_self b t)
      have ht : ∀ x ∈ t, 0 < x.remaining_quantity :=
        fun x hx => h x (List.mem_cons_of_mem _ hx)
      have hst : 0 ≤ sumRemaining t := sumRemaining_nonneg ht
      rw [sumRemaining_cons]
      by_cases hz : q ≤ 0
      · have hq0 : q = 0 := le_antisymm hz hq
        subst hq0
        simp only [walkTakes, if_pos le_rfl, List.map_cons, List.sum_cons]
        rw [ih 0 ht le_rfl]
        rw [min_eq_left hst, min_eq_left (by linarith)]
        ring
      · push_neg at hz
        simp only [walkTakes, if_neg (not_le.mpr hz), List.map_cons, List.sum_cons]
        have htle : min b.remaining_quantity q ≤ q := min_le_right _ _
        rw [ih (q - min b.remaining_quantity q) ht (by linarith)]
        rcases le_total b.remaining_quantity q with hc | hc
        · rw [min_eq_left hc]
          rcases le_total (q - b.remaining_quantity) (sumRemaining t) with h2 | h2
          · rw [min_eq_left h2, min_eq_left (by linarith)]
            ring
          · rw [min_eq_right h2, min_eq_right (by linarith)]
        · rw [min_eq_right hc]
          have h3 : min (q - q) (sumRemaining t) = 0 := by
            rw [sub_self, min_eq_left hst]
          rw [h3, min_eq_left (by linarith)]
          ring

theorem takeOf_not_mem {tks : List (ℕ × ℚ)} {i : ℕ}
    (h : i ∉ tks.map Prod.fst) : takeOf tks i = 0 := by
  have hf : tks.find? (fun r => r.1 == i) = none := by
    rw [List.find?_eq_none]
    intro x hx hcontra
    exact h (List.mem_map.mpr ⟨x, hx, by simpa using hcontra⟩)
  simp [takeOf, hf]

theorem sum_takeOf_keys {tks : List (ℕ × ℚ)} (h : (tks.map Prod.fst).Nodup) :
    ((tks.map Prod.fst).map (takeOf tks)).sum = (tks.map (fun r => r.2)).sum := by
  induction tks with
  | nil => simp
  | cons r rest ih =>
      rw [List.map_cons, List.nodup_cons] at h
      obtain ⟨hhead, htail⟩ := h
      simp only [List.map_cons, List.sum_cons]
      have h1 : takeOf (r :: rest) r.1 = r.2 := by
        simp [takeOf, List.find?_cons]
      have h2 : (rest.map Prod.fst).map (takeOf (r :: rest))
          = (rest.map Prod.fst).map (takeOf rest) := by
        apply List.map_congr_left
        intro k hk
        have hkne : ¬(r.1 == k) = true := by
          intro hcontra
          rw [beq_iff_eq.mp hcontra] at hhead
          exact hhead hk
        simp [takeOf, List.find?_cons, hkne]
      rw [h1, h2, ih htail]

theorem sum_map_eq_sum_filter {α : Type} (l : List α) (p : α → Bool) (g : α → ℚ)
    (h : ∀ b ∈ l, p b = false → g b = 0) :
    (l.map g).sum = ((l.filter p).map g).sum := by
  induction l with
  | nil => simp
  | cons a t ih =>
      have ht : ∀ b ∈ t, p b = false → g b = 0 :=
        fun b hb => h b (List.mem_cons_of_mem _ hb)
      by_cases hp : p a
      · simp [List.filter_cons, hp, ih ht]
      · have hpa : p a = false := by simpa using hp
        have ha := h a (List.mem_cons_self a t) hpa
        simp [List.filter_cons, hpa, ha, ih ht]

theorem sum_map_sub {α : Type} (l : List α) (f g : α → ℚ) :
    (l.map (fun a => f a - g a)).sum = (l.map f).sum - (l.map g).sum := by
  induction l with
  | nil => simp
  | cons a t ih =>
      simp only [List.map_cons, List.sum_cons, ih]
      ring

theorem sumRemaining_after_takes (batches : List Batch) (pid : ℕ)
    (tks : List (ℕ × ℚ))
    (hids : (batches.map (fun b => b.id)).Nodup)
    (hkeys : (tks.map Prod.fst).Perm
      ((batches.filter (fun b => b.product_id == pid
        && decide (0 < b.remaining_quantity))).map (fun b => b.id))) :
    sumRemaining ((batches.map (fun b =>
        if b.product_id == pid then
          { b with remaining_quantity := b.remaining_quantity - takeOf tks b.id }
        else b)).filter (fun b => b.product_id == pid))
      = sumRemaining (batches.filter (fun b => b.product_id == pid))
        - (tks.map (fun r => r.2)).sum := by
  set f : Batch → Batch := fun b =>
    if b.product_id == pid then
      { b with remaining_quantity := b.remaining_quantity - takeOf tks b.id }
    else b with hf
  have hnod_l₁ : ((batches.filter (fun b => b.product_id == pid
      && decide (0 < b.remaining_quantity))).map (fun b => b.id)).Nodup :=
    List.Nodup.sublist (List.Sublist.map _ (List.filter_sublist _)) hids
  have hnod_keys : (tks.map Prod.fst).Nodup :=
    (List.Perm.nodup_iff hkeys).mpr hnod_l₁
  have hpf : ∀ b ∈ batches,
      (((fun b => b.product_id == pid) ∘ f) b) = (b.product_id == pid) := by
    intro b _
    by_cases h : b.product_id = pid <;> simp [hf, h]
  rw [List.filter_map, List.filter_congr hpf]
  have hmapf : ((batches.filter (fun b => b.product_id == pid)).map f).map
        (fun b => b.remaining_quantity)
      = (batches.filter (fun b => b.product_id == pid)).map
        (fun b => b.remaining_quantity - takeOf tks b.id) := by
    rw [List.map_map]
    apply List.map_congr_left
    intro b hb
    have hbp : b.product_id = pid := by
      simpa using (List.mem_filter.mp hb).2
    simp [hf, Function.comp, hbp]
  have hzero : ∀ b ∈ batches.filter (fun b => b.product_id == pid),
      (decide (0 < b.remaining_quantity)) = false → takeOf tks b.id = 0 := by
    intro b hb hpos
    apply takeOf_not_mem
    intro hmem
    have hmem' : b.id ∈ (batches.filter (fun x => x.product_id == pid
        && decide (0 < x.remaining_quantity))).map (fun x => x.id) :=
      hkeys.mem_iff.mp hmem
    obtain ⟨b', hb', hid⟩ := List.mem_map.mp hmem'
    have hb'f := List.mem_filter.mp hb'
    have hbf := List.mem_filter.mp hb
    have hbb : b' = b := List.inj_on_of_nodup_map hids hb'f.1 hbf.1 hid
    have := hb'f.2
    rw [hbb, Bool.and_eq_true] at this
    rw [this.2] at hpos
    exact Bool.true_eq_false.mp hpos
  have hC1 : ((batches.filter (fun b => b.product_id == pid)).map
        (fun b => takeOf tks b.id)).sum
      = (((batches.filter (fun b => b.product_id == pid)).filter
          (fun b => decide (0 < b.remaining_quantity))).map
          (fun b => takeOf tks b.id)).sum :=
    sum_map_eq_sum_filter _ _ _ hzero
  have hff : (batches.filter (fun b => b.product_id == pid)).filter
        (fun b => decide (0 < b.remaining_quantity))
      = batches.filter (fun b => b.product_id == pid
          && decide (0 < b.remaining_quantity)) := by
    rw [List.filter_filter]
    exact List.filter_congr (fun a _ => Bool.and_comm _ _)
  have hD : ((batches.filter (fun b => b.product_id == pid
        && decide (0 < b.remaining_quantity))).map
        (fun b => takeOf tks b.id)).sum
      = (tks.map (fun r => r.2)).sum := by
    have h1 : (batches.filter (fun b => b.product_id == pid
          && decide (0 < b.remaining_quantity))).map (fun b => takeOf tks b.id)
        = ((batches.filter (fun b => b.product_id == pid
            && decide (0 < b.remaining_quantity))).map (fun b => b.id)).map
            (takeOf tks) := by
      rw [List.map_map]
      rfl
    rw [h1, ← (hkeys.map (takeOf tks)).sum_eq, sum_takeOf_keys hnod_keys]
  show (((batches.filter (fun b => b.product_id == pid)).map f).map
      (fun b => b.remaining_quantity)).sum = _
  rw [hmapf, sum_map_sub, hC1, hff, hD]
  rfl

theorem deduct_batches_eq (db : DB) (pid : ℕ) (q : ℚ) :
    (deduct_inventory_fifo db pid q).batches
      = db.batches.map (fun b =>
          if b.product_id == pid then
            { b with remaining_quantity := b.remaining_quantity
                - takeOf (walkTakes (availableBatches db.batches pid) q) b.id }
          else b) := by
  simp only [deduct_inventory_fifo]
  rw [adjust_inventory_batches]

/-- C6: deduct_inventory_fifo never fails on insufficient stock: the
positive-remaining batches of the product (walked ascending by received_date
with take = min(remaining, remaining_to_deduct)) lose exactly
min(q, total available) in total — silently stopping when they are
exhausted before q is covered — while the inventory position of the product is
always decremented by the full requested q, the position row being
created when absent. -/
theorem C6_deduct (db : DB) (pid : ℕ) (q : ℚ) (hq : 0 ≤ q)
    (hids : (db.batches.map (fun b => b.id)).Nodup) :
    positionOf (deduct_inventory_fifo db pid q).positions pid
      = some ((positionOf db.positions pid).getD 0 - q)
    ∧ sumRemaining ((deduct_inventory_fifo db pid q).batches.filter
        (fun b => b.product_id == pid))
      = sumRemaining (db.batches.filter (fun b => b.product_id == pid))
        - min q (sumRemaining (availableBatches db.batches pid)) := by
  constructor
  · simp only [deduct_inventory_fifo]
    rw [adjust_inventory_position, sub_eq_add_neg]
  · have hkeys : ((walkTakes (availableBatches db.batches pid) q).map
        Prod.fst).Perm
        ((db.batches.filter (fun b => b.product_id == pid
          && decide (0 < b.remaining_quantity))).map (fun b => b.id)) := by
      rw [walkTakes_keys]
      exact (availableBatches_perm db.batches pid).map _
    rw [deduct_batches_eq, sumRemaining_after_takes db.batches pid _ hids hkeys,
      walkTakes_sum _ q availableBatches_pos hq]

/-- Witness for C6 at the example state of the spec (total available 100,
request 60, no pre-existing position row). -/
theorem C6_deduct_witness :
    positionOf (deduct_inventory_fifo fifoExampleDB 7 60).positions 7
      = some ((positionOf fifoExampleDB.positions 7).getD 0 - 60)
    ∧ sumRemaining ((deduct_inventory_fifo fifoExampleDB 7 60).batches.filter
        (fun b => b.product_id == 7))
      = sumRemaining (fifoExampleDB.batches.filter (fun b => b.product_id == 7))
        - min 60 (sumRemaining (availableBatches fifoExampleDB.batches 7)) :=
  C6_deduct fifoExampleDB 7 60 (by norm_num)
    (by simp [fifoExampleDB, List.nodup_cons])

/-! ## Claims C2, C4, C7: the deal aggregate -/

/-- The margin invariant of a deal: margin = total_price - total_cost. -/
def marginInv (st : DealState) : Prop :=
  st.deal.margin = st.deal.total_price - st.deal.total_cost

/-- C2: after every add-items and every remove-item operation on a deal
(and across any sequence of them) deal.margin equals deal.total_price
minus deal.total_cost with exact equality: each successful add or remove
re-establishes the equation outright, and any sequence of operations
preserves it. -/
theorem C2_margin_invariant :
    (∀ (db : DB) (st : DealState) (specs : List ItemSpec) (st' : DealState)
        (db' : DB), add_items_to_deal db st specs = .ok (st', db') →
        marginInv st')
    ∧ (∀ (st : DealState) (item_id : ℕ),
        (remove_deal_item st item_id).2 = true →
        marginInv (remove_deal_item st item_id).1)
    ∧ (∀ (s : DealState × DB) (ops : List DealOp),
        marginInv s.1 → marginInv (applyDealOps s ops).1) := by
  have hadd : ∀ (db : DB) (st : DealState) (specs : List ItemSpec)
      (st' : DealState) (db' : DB),
      add_items_to_deal db st specs = .ok (st', db') → marginInv st' := by
    intro db st specs st' db' h
    unfold add_items_to_deal at h
    cases hl : add_items_loop db specs st.nextId with
    | error e => rw [hl] at h; exact absurd h (by simp)
    | ok r =>
        obtain ⟨new_items, db2⟩ := r
        rw [hl] at h
        simp only [Except.ok.injEq, Prod.mk.injEq] at h
        rw [← h.1]
        simp [marginInv]
  have hrem : ∀ (st : DealState) (item_id : ℕ),
      (remove_deal_item st item_id).2 = true →
      marginInv (remove_deal_item st item_id).1 := by
    intro st item_id h
    unfold remove_deal_item at h ⊢
    by_cases hc : st.items.any (fun i => i.id == item_id)
    · rw [if_pos hc]
      simp [marginInv]
    · rw [if_neg hc] at h
      exact absurd h (by simp)
  have hop : ∀ (s : DealState × DB) (op : DealOp),
      marginInv s.1 → marginInv (applyDealOp s op).1 := by
    intro s op hinv
    cases op with
    | addItems specs =>
        show marginInv (match add_items_to_deal s.2 s.1 specs with
          | .ok r => r
          | .error _ => s).1
        cases h : add_items_to_deal s.2 s.1 specs with
        | ok r => exact hadd s.2 s.1 specs r.1 r.2 h
        | error e => exact hinv
    | removeItem iid =>
        unfold applyDealOp
        by_cases hc : (remove_deal_item s.1 iid).2 = true
        · exact hrem _ _ hc
        · have heq : (remove_deal_item s.1 iid).1 = s.1 := by
            unfold remove_deal_item at hc ⊢
            by_cases hany : s.1.items.any (fun i => i.id == iid)
            · rw [if_pos hany] at hc
              exact absurd rfl hc
            · rw [if_neg hany]
          rw [heq]
          exact hinv
  refine ⟨hadd, hrem, ?_⟩
  intro s ops hinv
  induction ops generalizing s with
  | nil => exact hinv
  | cons op rest ih =>
      have : applyDealOps s (op :: rest) = applyDealOps (applyDealOp s op) rest := by
        simp [applyDealOps]
      rw [this]
      exact ih _ (hop s op hinv)

/-- Witness for C2: a fresh deal undergoing one add-items and one
remove-item operation keeps margin = total_price - total_cost. -/
theorem C2_margin_invariant_witness :
    marginInv (applyDealOps (⟨⟨0, 0, 0⟩, [], 1⟩, fifoExampleDB)
      [DealOp.addItems [⟨7, 5, some 10, none⟩], DealOp.removeItem 1]).1 :=
  C2_margin_invariant.2.2 (⟨⟨0, 0, 0⟩, [], 1⟩, fifoExampleDB)
    [DealOp.addItems [⟨7, 5, some 10, none⟩], DealOp.removeItem 1]
    (by simp [marginInv])

/-- State for C4: product 9 with a batch of 5 units at unit cost 48, a
fresh deal, and a posted line item that explicitly supplies unit_cost 99
(and unit_price 10). -/
def c4DB : DB := ⟨[⟨9, none, none⟩], [⟨20, 9, 5, 48, 1⟩], []⟩

/-- Fresh deal state for the C4 scenario. -/
def c4State : DealState := ⟨⟨0, 0, 0⟩, [], 1⟩

/-- Posted item payload for the C4 scenario: unit_cost 99 supplied. -/
def c4Spec : ItemSpec := ⟨9, 1, some 10, some 99⟩

/-- C4: the add-items endpoint ignores a caller-supplied unit_cost: with
unit_cost 99 posted, the created line item carries the FIFO cost 48
instead, contradicting the documented contract of the schema itself ("calculated
via FIFO if not provided"). -/
theorem C4_unit_cost_ignored :
    (add_items_to_deal c4DB c4State [c4Spec]).map
        (fun r => r.1.items.map (fun i => i.unit_cost)) = .ok [48]
    ∧ c4Spec.unit_cost = some 99
    ∧ ((48 : ℚ) ≠ 99) := by
  refine ⟨?_, rfl, by norm_num⟩
  norm_num [add_items_to_deal, add_items_loop, resolve_item, c4DB, c4State,
    c4Spec, get_product, calculate_fifo_cost, availableBatches,
    List.insertionSort, List.orderedInsert, batchLE, fifoWalk, fifoStep,
    roundHalfEven2, List.filter, List.find?, Except.map]

/-- C7: recalculate_deal_totals is idempotent — a second run reproduces
identical total_price, total_cost and margin — and an immediately
repeated run of the batch variant reports zero deals changed, since it
counts only deals whose stored totals differ from the item sums. -/
theorem C7_recalculate_idempotent :
    (∀ st : DealState,
        recalculate_deal_totals (recalculate_deal_totals st)
          = recalculate_deal_totals st)
    ∧ (∀ ds : List (Deal × List DealItem),
        (recalculate_all_deals_totals (recalculate_all_deals_totals ds).1).2
          = 0) := by
  constructor
  · intro st
    simp [recalculate_deal_totals]
  · intro ds
    induction ds with
    | nil => rfl
    | cons d rest ih =>
        obtain ⟨deal, items⟩ := d
        simp only [recalculate_all_deals_totals]
        by_cases hc : deal.total_price ≠ (items.map (fun i => i.total_price)).sum
            ∨ deal.total_cost ≠ (items.map (fun i => i.total_cost)).sum
        · rw [if_pos hc]
          simp only [recalculate_all_deals_totals]
          rw [if_neg (by push_neg; exact ⟨rfl, rfl⟩)]
          simpa using ih
        · rw [if_neg hc]
          simp only [recalculate_all_deals_totals]
          rw [if_neg hc]
          simpa using ih

/-! ## Claims C9, C10: the financial aggregator -/

/-- Deals for the C9 rollup scenario (range [100, 200] on tenant 1): the
two genuinely counted final_account deals, an at_work deal closed in
range, a final_account deal closed out of range but created in range, a
final_account deal of another tenant, and a never-closed final_account
deal. -/
def finExampleDeals : List DealRow :=
  [⟨1, .final_account, 50000, 30000, some 150, 500⟩,
   ⟨1, .final_account, 75000, 45000, some 160, 120⟩,
   ⟨1, .at_work, 999, 999, some 150, 150⟩,
   ⟨1, .final_account, 888, 888, some 300, 150⟩,
   ⟨2, .final_account, 777, 777, some 150, 150⟩,
   ⟨1, .final_account, 666, 666, none, 150⟩]

/-- Expenses for the C9 scenario: one fixed expense of 20000 in range and
one fixed expense out of range. -/
def finExampleExpenses : List Expense :=
  [⟨1, 20000, true, 150⟩, ⟨1, 555, true, 300⟩]

/-- C9: aggregation sums total_price and total_cost only over
final_account deals with closed_at in the given range and is entirely
independent of created_at; on the rollup scenario (two final deals
50000/30000 and 75000/45000 closed in range, one fixed expense 20000 in
range) the financials read revenue 125000, cogs 75000, gross_profit
50000, opex 20000 and ebit 30000. -/
theorem C9_financial_rollup (deals : List DealRow) (t : ℕ) (s e : Option ℤ)
    (f : DealRow → ℤ) :
    aggregate_revenue_and_cogs (deals.map (fun d => { d with created_at := f d }))
        t s e
      = aggregate_revenue_and_cogs deals t s e
    ∧ (calculate_financials finExampleDeals finExampleExpenses none 1
        (some 100) (some 200) noOverrides).revenue = 125000
    ∧ (calculate_financials finExampleDeals finExampleExpenses none 1
        (some 100) (some 200) noOverrides).cogs = 75000
    ∧ (calculate_financials finExampleDeals finExampleExpenses none 1
        (some 100) (some 200) noOverrides).gross_profit = 50000
    ∧ (calculate_financials finExampleDeals finExampleExpenses none 1
        (some 100) (some 200) noOverrides).opex = 20000
    ∧ (calculate_financials finExampleDeals finExampleExpenses none 1
        (some 100) (some 200) noOverrides).ebit = 30000 := by
  refine ⟨?_, ?_, ?_, ?_, ?_, ?_⟩
  · unfold aggregate_revenue_and_cogs
    simp only [List.filter_map, List.map_map]
    rfl
  all_goals
    norm_num [calculate_financials, aggregate_revenue_and_cogs,
      get_expenses_totals, get_tax_rate, isFinalAccount, inClosedRange,
      expenseInRange, roundHalfUp2, finExampleDeals, finExampleExpenses,
      noOverrides, List.filter_cons, List.filter_nil]

/-- C10: break_even_revenue equals total_fixed divided by the
contribution ratio (revenue - total_variable) / revenue, rounded half-up
to 2 decimals, exactly when revenue > 0 and revenue - total_variable > 0,
and is null otherwise, where total_fixed is the fixed override (default
0) plus stored fixed expenses and total_variable is the variable override
if given, else cogs plus stored variable expenses; with revenue 500000,
cogs 300000, fixed 100000, variable 300000, tax 0 it is exactly
250000.00. -/
theorem C10_break_even (deals : List DealRow) (expenses : List Expense)
    (settings : Option ℚ) (t : ℕ) (s e : Option ℤ) (ov : FinOverrides) :
    ((calculate_financials deals expenses settings t s e ov).break_even_revenue
      = (let revenue :=
           ov.revenue_override.getD (aggregate_revenue_and_cogs deals t s e).1
         let cogs :=
           ov.cogs_override.getD (aggregate_revenue_and_cogs deals t s e).2
         let ex := get_expenses_totals expenses t s e
         let total_fixed := ov.fixed_costs.getD 0 + ex.1
         let total_variable := ov.variable_costs.getD (cogs + ex.2.1)
         if 0 < revenue ∧ 0 < revenue - total_variable then
           some (roundHalfUp2 (total_fixed / ((revenue - total_variable) / revenue)))
         else none))
    ∧ (calculate_financials [] [] none 1 none none
        ⟨none, some 100000, some 300000, some 0, some 500000, some 300000⟩).break_even_revenue
      = some 250000 := by
  constructor
  · simp only [calculate_financials]
    cases ov.revenue_override with
    | none =>
        cases ov.cogs_override with
        | none =>
            cases ov.variable_costs with
            | none => simp only [Option.getD_none, Option.getD_some] <;> split_ifs <;> tauto
            | some v => simp only [Option.getD_none, Option.getD_some] <;> split_ifs <;> tauto
        | some c =>
            cases ov.variable_costs with
            | none => simp only [Option.getD_none, Option.getD_some] <;> split_ifs <;> tauto
            | some v => simp only [Option.getD_none, Option.getD_some] <;> split_ifs <;> tauto
    | some r =>
        cases ov.cogs_override with
        | none =>
            cases ov.variable_costs with
            | none => simp only [Option.getD_none, Option.getD_some] <;> split_ifs <;> tauto
            | some v => simp only [Option.getD_none, Option.getD_some] <;> split_ifs <;> tauto
        | some c =>
            cases ov.variable_costs with
            | none => simp only [Option.getD_none, Option.getD_some] <;> split_ifs <;> tauto
            | some v => simp only [Option.getD_none, Option.getD_some] <;> split_ifs <;> tauto
  · norm_num [calculate_financials, aggregate_revenue_and_cogs,
      get_expenses_totals, get_tax_rate, roundHalfUp2, List.filter]

end Bizio
